import Mathlib

/-!
Verification of the misskey-rss-summarizer feed-processing core.

The Go sources are shallowly embedded:
* `GoTime` models `time.Time` as an instant: whole seconds since the internal
  epoch (year 1, as in Go's internal representation) plus a nanosecond part.
* The token-bucket rate limiter of `internal/infrastructure/misskey`
  (`rateLimiter`, `newRateLimiter`, `Wait`) becomes a pure state-transition
  function; the outcome of the `select` between the context and the refill
  timer is an explicit event.
* The orchestrator `RSSFeedService.ProcessFeed` and its helpers
  (`filterByKeywords`, `filterNewEntries`, `findMostRecentEntry`,
  `shouldSkipEntry`, `postEntries`, `sortEntriesByPublishedAsc`) become pure
  functions over an explicit cache state; fallible collaborators (feed fetch,
  `IsProcessed`, `Post`, `MarkAsProcessed`, `SaveLatestPublishedTime`,
  `GetLatestPublishedTime`) are driven by an oracle environment recording
  which calls succeed.
* The SQLite-backed and in-memory cache stores become finite maps; the SQLite
  store keeps only whole Unix seconds, as `sqlite_cache.go` does.
-/

/-- An instant of Go `time.Time`: `sec` is whole seconds since Go's internal
epoch (January 1, year 1 UTC), `nsec` the nanosecond offset within that
second (well-formed times have `nsec < 10^9`). -/
structure GoTime where
  sec : Int
  nsec : Nat
  deriving DecidableEq, Repr

/-- The zero `time.Time` (`time.Time{}`): January 1, year 1, 00:00:00 UTC. -/
def goZeroTime : GoTime := { sec := 0, nsec := 0 }

/-- `t.IsZero()`. -/
def goIsZero (t : GoTime) : Bool := t = goZeroTime

/-- `a.After(b)`: the instant `a` is strictly later than `b`. -/
def goAfter (a b : GoTime) : Bool :=
  decide (b.sec < a.sec ∨ (b.sec = a.sec ∧ b.nsec < a.nsec))

/-- `a.Before(b)`. -/
def goBefore (a b : GoTime) : Bool := goAfter b a

/-- Seconds between the internal epoch (year 1) and the Unix epoch (1970),
Go's `unixToInternal` constant. -/
def unixEpochOffset : Int := 62135596800

/-- `t.Unix()`: whole seconds since the Unix epoch (the nanosecond part is
dropped). -/
def goUnix (t : GoTime) : Int := t.sec - unixEpochOffset

/-- `time.Unix(v, 0)`: the instant `v` whole Unix seconds, no nanoseconds. -/
def goTimeUnix (v : Int) : GoTime := { sec := v + unixEpochOffset, nsec := 0 }

/-- A `GoTime` truncated to whole seconds: same second, nanoseconds dropped. -/
def truncToSecond (t : GoTime) : GoTime := { sec := t.sec, nsec := 0 }

theorem goAfter_irrefl (a : GoTime) : goAfter a a = false := by
  simp [goAfter]

theorem goAfter_asymm {a b : GoTime} (h : goAfter a b = true) :
    goAfter b a = false := by
  simp only [goAfter, decide_eq_true_eq, decide_eq_false_iff_not] at h ⊢
  omega

theorem goAfter_false_trans {a b c : GoTime} (h1 : goAfter b a = false)
    (h2 : goAfter c b = false) : goAfter c a = false := by
  simp only [goAfter, decide_eq_false_iff_not] at h1 h2 ⊢
  omega

theorem goAfter_false_between {a b c : GoTime} (h1 : goAfter a b = true)
    (h2 : goAfter a c = false) : goAfter b c = false := by
  simp only [goAfter, decide_eq_true_eq, decide_eq_false_iff_not] at h1 h2 ⊢
  omega

/-! ## Rate limiter (token bucket), from the misskey infrastructure package -/

/-- State of the `rateLimiter` struct: permit count, capacity, refill
interval and the last-refill instant (durations and instants in
nanoseconds, as Go's `time.Duration`/monotonic clock). -/
structure RateLimiter where
  permits : Int
  maxPermits : Int
  refillRate : Int
  lastRefill : Int
  deriving DecidableEq, Repr

/-- `newRateLimiter(maxPermits, refillRate)` called at instant `now`
(`lastRefill: time.Now()`). -/
def newRateLimiter (maxPermits refillRate now : Int) : RateLimiter :=
  { permits := maxPermits, maxPermits := maxPermits,
    refillRate := refillRate, lastRefill := now }

/-- The source's `min(a, b int) int` helper. -/
def goIntMin (a b : Int) : Int := if a < b then a else b

/-- The refill step at the top of `Wait`: whole elapsed intervals become
permits (capped at capacity) and `lastRefill` is set to `now` when at least
one permit was added.  Go's integer division truncates toward zero
(`Int.tdiv`). -/
def rlRefill (rl : RateLimiter) (now : Int) : RateLimiter :=
  let elapsed := now - rl.lastRefill
  let permitsToAdd := elapsed.tdiv rl.refillRate
  if 0 < permitsToAdd then
    { rl with permits := goIntMin (rl.permits + permitsToAdd) rl.maxPermits,
              lastRefill := now }
  else rl

/-- Which arm of the `select` in `Wait` fires when the limiter has to
block: the context's cancellation, or the refill timer. -/
inductive WaitEvent where
  | cancelled
  | timerFired
  deriving DecidableEq, Repr

/-- One call of `rateLimiter.Wait`: `now` is `time.Now()` on entry, `ev` the
`select` outcome if the call blocks, `now2` is `time.Now()` when the timer
fires.  Returns the new limiter state and whether an error (the context's
cancellation) was returned. -/
def rlWait (rl : RateLimiter) (now : Int) (ev : WaitEvent) (now2 : Int) :
    RateLimiter × Bool :=
  let rl1 := rlRefill rl now
  if rl1.permits ≤ 0 then
    match ev with
    | WaitEvent.cancelled => (rl1, true)
    | WaitEvent.timerFired =>
        ({ rl1 with permits := 0, lastRefill := now2 }, false)
  else
    ({ rl1 with permits := rl1.permits - 1 }, false)

/-- A sequence of completed `Wait` calls, each with its entry instant, its
`select` outcome and its timer-fire instant. -/
def rlRun (rl : RateLimiter) : List (Int × WaitEvent × Int) → RateLimiter
  | [] => rl
  | (now, ev, now2) :: rest => rlRun (rlWait rl now ev now2).1 rest

theorem rlWait_preserves_range {rl : RateLimiter}
    (h0 : 0 ≤ rl.permits) (h1 : rl.permits ≤ rl.maxPermits)
    (now : Int) (ev : WaitEvent) (now2 : Int) :
    0 ≤ (rlWait rl now ev now2).1.permits ∧
      (rlWait rl now ev now2).1.permits ≤ (rlWait rl now ev now2).1.maxPermits := by
  have hmax : 0 ≤ rl.maxPermits := le_trans h0 h1
  rcases ev with _ | _ <;>
    simp only [rlWait, rlRefill, goIntMin] <;>
    split_ifs <;> first | omega | (simp_all; omega) | simp_all

theorem rlWait_preserves_caps (rl : RateLimiter)
    (now : Int) (ev : WaitEvent) (now2 : Int) :
    (rlWait rl now ev now2).1.maxPermits = rl.maxPermits ∧
      (rlWait rl now ev now2).1.refillRate = rl.refillRate := by
  unfold rlWait rlRefill
  rcases ev with _ | _ <;> dsimp only <;> split <;> split <;> simp_all

theorem rlRun_preserves_range (ops : List (Int × WaitEvent × Int)) :
    ∀ rl : RateLimiter, 0 ≤ rl.permits → rl.permits ≤ rl.maxPermits →
      0 ≤ (rlRun rl ops).permits ∧
        (rlRun rl ops).permits ≤ (rlRun rl ops).maxPermits := by
  induction ops with
  | nil => intro rl h0 h1; exact ⟨h0, h1⟩
  | cons op rest ih =>
      intro rl h0 h1
      rcases op with ⟨now, ev, now2⟩
      have h := rlWait_preserves_range h0 h1 now ev now2
      exact ih _ h.1 h.2

/-- Claim C5: if a `Wait` call blocks (no permit available after the refill
step) and the context is cancelled before the refill timer fires, the call
returns the cancellation error and the limiter state — permit count and
`lastRefill` — is exactly the state it had when it began blocking; in
particular no permit is decremented. -/
theorem claim5_cancelled_wait_leaves_state (rl : RateLimiter) (now now2 : Int)
    (h : (rlRefill rl now).permits ≤ 0) :
    rlWait rl now WaitEvent.cancelled now2 = (rlRefill rl now, true) := by
  simp [rlWait, h]

theorem claim5_cancelled_wait_leaves_state_witness :
    rlWait { permits := 0, maxPermits := 3, refillRate := 10, lastRefill := 0 }
        5 WaitEvent.cancelled 7 =
      (rlRefill { permits := 0, maxPermits := 3, refillRate := 10, lastRefill := 0 } 5,
        true) :=
  claim5_cancelled_wait_leaves_state
    { permits := 0, maxPermits := 3, refillRate := 10, lastRefill := 0 }
    5 7 (by decide)

/-- Claim C6, counterexample: with refill interval 10 and 15 elapsed units
(one whole interval), the code sets `lastRefill` to the current instant 15,
not — as the claim states — to the old value advanced by one interval's
worth (10). -/
theorem claim6_counterexample :
    (rlRefill { permits := 0, maxPermits := 3, refillRate := 10, lastRefill := 0 }
        15).lastRefill = 15 ∧
      ((15 : Int) - 0).tdiv 10 = 1 ∧ (15 : Int) ≠ 0 + 1 * 10 := by
  decide

/-- Claim C6, amended: in every `Wait` call the refill step adds exactly one
permit per whole refill interval elapsed since `lastRefill`, caps the permit
count at capacity, and — when at least one permit is added — advances
`lastRefill` all the way to the current instant (discarding the fractional
remainder of the last interval), not merely by the whole intervals' worth;
when no whole interval has elapsed the state is unchanged. -/
theorem claim6_refill_amended (rl : RateLimiter) (now : Int)
    (hrate : 0 < rl.refillRate) (hnow : rl.lastRefill ≤ now) :
    ∃ k : Int, 0 ≤ k ∧
      k * rl.refillRate ≤ now - rl.lastRefill ∧
      now - rl.lastRefill < (k + 1) * rl.refillRate ∧
      rlRefill rl now =
        (if 0 < k then
          { rl with permits := goIntMin (rl.permits + k) rl.maxPermits,
                    lastRefill := now }
         else rl) := by
  set e : Int := now - rl.lastRefill with he
  have he0 : 0 ≤ e := by omega
  refine ⟨e.tdiv rl.refillRate, ?_, ?_, ?_, ?_⟩
  · exact Int.tdiv_nonneg he0 (le_of_lt hrate)
  · rw [Int.tdiv_eq_ediv he0 (le_of_lt hrate)]
    have h := Int.ediv_add_emod e rl.refillRate
    have h2 := Int.emod_nonneg e (ne_of_gt hrate)
    nlinarith [h, h2]
  · rw [Int.tdiv_eq_ediv he0 (le_of_lt hrate)]
    have h := Int.ediv_add_emod e rl.refillRate
    have h2 := Int.emod_lt_of_pos e hrate
    nlinarith [h, h2]
  · rfl

theorem claim6_refill_amended_witness :
    ∃ k : Int, 0 ≤ k ∧
      k * (10 : Int) ≤ 15 - 0 ∧
      (15 : Int) - 0 < (k + 1) * 10 ∧
      rlRefill { permits := 0, maxPermits := 3, refillRate := 10, lastRefill := 0 } 15 =
        (if 0 < k then
          { permits := goIntMin (0 + k) 3, maxPermits := 3, refillRate := 10,
            lastRefill := 15 }
         else { permits := 0, maxPermits := 3, refillRate := 10, lastRefill := 0 }) :=
  claim6_refill_amended
    { permits := 0, maxPermits := 3, refillRate := 10, lastRefill := 0 }
    15 (by decide) (by decide)

/-- Claim C7, counterexample: `newRateLimiter` accepts any `int` capacity;
constructed with `maxPermits = -1` the permit count observed before any
`Wait` call is `-1`, outside `[0, capacity]`. -/
theorem claim7_counterexample :
    ¬ (0 ≤ (rlRun (newRateLimiter (-1) 10 0) []).permits ∧
        (rlRun (newRateLimiter (-1) 10 0) []).permits ≤
          (rlRun (newRateLimiter (-1) 10 0) []).maxPermits) := by
  decide

/-- Claim C7, amended: for every limiter constructed by `newRateLimiter`
with non-negative `maxPermits` and positive `refillRate`, and every sequence
of completed `Wait` calls, the permit count observed between operations is
always in `[0, capacity]`. -/
theorem claim7_permits_in_range_amended (maxPermits refillRate now0 : Int)
    (hmax : 0 ≤ maxPermits) (hrate : 0 < refillRate)
    (ops : List (Int × WaitEvent × Int)) :
    0 ≤ (rlRun (newRateLimiter maxPermits refillRate now0) ops).permits ∧
      (rlRun (newRateLimiter maxPermits refillRate now0) ops).permits ≤
        (rlRun (newRateLimiter maxPermits refillRate now0) ops).maxPermits :=
  rlRun_preserves_range ops (newRateLimiter maxPermits refillRate now0)
    hmax (le_refl maxPermits)

theorem claim7_permits_in_range_amended_witness :
    0 ≤ (rlRun (newRateLimiter 2 10 0)
          [(5, WaitEvent.cancelled, 6), (12, WaitEvent.timerFired, 12)]).permits ∧
      (rlRun (newRateLimiter 2 10 0)
          [(5, WaitEvent.cancelled, 6), (12, WaitEvent.timerFired, 12)]).permits ≤
        (rlRun (newRateLimiter 2 10 0)
          [(5, WaitEvent.cancelled, 6), (12, WaitEvent.timerFired, 12)]).maxPermits :=
  claim7_permits_in_range_amended 2 10 0 (by decide) (by decide)
    [(5, WaitEvent.cancelled, 6), (12, WaitEvent.timerFired, 12)]

/-! ## Feed entries and the keyword filter -/

/-- `entity.FeedEntry`. -/
structure FeedEntry where
  title : String
  link : String
  description : String
  published : GoTime
  guid : String
  deriving DecidableEq, Repr

/-- `f.IsNewerThan(t)` from `entity/feed.go`: `f.Published.After(t)`. -/
def FeedEntry.IsNewerThan (f : FeedEntry) (t : GoTime) : Bool :=
  goAfter f.published t

/-- Byte-level `strings.HasPrefix` on UTF-8 text, as character lists
(Go's byte comparison agrees with character comparison on valid UTF-8). -/
def hasPrefixCL : List Char → List Char → Bool
  | _, [] => true
  | [], _ :: _ => false
  | a :: as, b :: bs => a == b && hasPrefixCL as bs

/-- `strings.Contains(hay, needle)`: literal, case-sensitive substring. -/
def strContains : List Char → List Char → Bool
  | [], needle => needle.isEmpty
  | a :: rest, needle => hasPrefixCL (a :: rest) needle || strContains rest needle

theorem hasPrefixCL_iff : ∀ hay needle : List Char,
    hasPrefixCL hay needle = true ↔ needle <+: hay
  | [], [] => by simp [hasPrefixCL]
  | [], _ :: _ => by simp [hasPrefixCL]
  | _ :: _, [] => by simp [hasPrefixCL]
  | a :: as, b :: bs => by
      simp [hasPrefixCL, hasPrefixCL_iff as bs, List.cons_prefix_cons,
        eq_comm (a := b) (b := a)]

theorem strContains_iff : ∀ hay needle : List Char,
    strContains hay needle = true ↔ needle <:+: hay
  | [], needle => by
      cases needle <;> simp [strContains]
  | a :: rest, needle => by
      simp [strContains, hasPrefixCL_iff, strContains_iff rest needle,
        List.infix_cons_iff]

/-- One keyword hits an entry: it is a literal, case-sensitive substring of
the entry's title or of its description. -/
def keywordMatches (k : String) (e : FeedEntry) : Prop :=
  k.data <:+: e.title.data ∨ k.data <:+: e.description.data

/-- The inner loop of `filterByKeywords`: scan the keywords, stop at the
first one contained in the entry's title or description. -/
def keywordMatchLoop (e : FeedEntry) : List String → Bool
  | [] => false
  | k :: ks =>
      if strContains e.title.data k.data || strContains e.description.data k.data
      then true
      else keywordMatchLoop e ks

/-- The outer loop of `filterByKeywords`: append each entry hit by some
keyword, preserving input order. -/
def filterByKeywordsLoop (keywords : List String) : List FeedEntry → List FeedEntry
  | [] => []
  | e :: es =>
      if keywordMatchLoop e keywords then e :: filterByKeywordsLoop keywords es
      else filterByKeywordsLoop keywords es

/-- `filterByKeywords` from the application package: no keywords means no
filtering. -/
def filterByKeywords (entries : List FeedEntry) (keywords : List String) :
    List FeedEntry :=
  if keywords.length = 0 then entries
  else filterByKeywordsLoop keywords entries

theorem keywordMatchLoop_iff (e : FeedEntry) : ∀ ks : List String,
    keywordMatchLoop e ks = true ↔ ∃ k ∈ ks, keywordMatches k e
  | [] => by simp [keywordMatchLoop]
  | k :: ks => by
      simp only [keywordMatchLoop]
      split
      · rename_i h
        simp only [Bool.or_eq_true, strContains_iff] at h
        simp only [true_iff]
        exact ⟨k, List.mem_cons_self k ks, h⟩
      · rename_i h
        simp only [Bool.or_eq_true, strContains_iff] at h
        rw [keywordMatchLoop_iff e ks]
        constructor
        · rintro ⟨k2, hk2, hm⟩
          exact ⟨k2, List.mem_cons_of_mem k hk2, hm⟩
        · rintro ⟨k2, hk2, hm⟩
          rcases List.mem_cons.mp hk2 with rfl | hk2
          · exact absurd hm h
          · exact ⟨k2, hk2, hm⟩

theorem filterByKeywordsLoop_eq_filter (ks : List String) :
    ∀ es : List FeedEntry,
      filterByKeywordsLoop ks es = es.filter (fun e => keywordMatchLoop e ks)
  | [] => rfl
  | e :: es => by
      simp only [filterByKeywordsLoop, List.filter,
        filterByKeywordsLoop_eq_filter ks es]
      split <;> simp_all

/-- Claim C8: the keyword filter is a pure function on the entry list.  With
an empty (or unset) keyword set it returns the input unchanged and in order;
otherwise it keeps an entry exactly when at least one keyword is a literal,
case-sensitive substring of the entry's title or of its description, and the
survivors keep their input order (the output is a sublist of the input). -/
theorem claim8_keyword_filter (entries : List FeedEntry) (keywords : List String) :
    (keywords = [] → filterByKeywords entries keywords = entries) ∧
    (filterByKeywords entries keywords).Sublist entries ∧
    (keywords ≠ [] →
      ∀ e : FeedEntry, e ∈ filterByKeywords entries keywords ↔
        (e ∈ entries ∧ ∃ k ∈ keywords, keywordMatches k e)) := by
  refine ⟨?_, ?_, ?_⟩
  · intro h
    simp [filterByKeywords, h]
  · unfold filterByKeywords
    split
    · exact List.Sublist.refl entries
    · rw [filterByKeywordsLoop_eq_filter]
      exact List.filter_sublist entries
  · intro h e
    have hlen : ¬ keywords.length = 0 := by
      simpa [List.length_eq_zero] using h
    simp only [filterByKeywords, if_neg hlen, filterByKeywordsLoop_eq_filter,
      List.mem_filter, keywordMatchLoop_iff]

/-! ## Orchestrator state, collaborator oracles -/

/-- `config.RSSSettings`: one feed descriptor. -/
structure RSSSettings where
  url : String
  keywords : List String

/-- The cache repository's observable state: per-URL watermark (zero when
never set, as both store implementations return) and the delivered-GUID
set. -/
structure ServiceState where
  latest : String → GoTime
  processed : String → Bool

/-- Outcomes of the fallible collaborators during one `ProcessFeed` pass:
what the feed fetch returns (`none` = fetch error), and which cache and
delivery calls succeed.  Within one pass each GUID is looked up, posted and
marked at most once, so per-GUID outcomes are faithful. -/
structure Env where
  fetch : String → Option (List FeedEntry)
  isProcessedOk : String → Bool
  postOk : String → Bool
  markOk : String → Bool
  getOk : Bool
  saveOk : Bool

/-- A successful `MarkAsProcessed(guid)`. -/
def markProcessed (st : ServiceState) (g : String) : ServiceState :=
  { st with processed := fun x => if x = g then true else st.processed x }

/-- A successful `SaveLatestPublishedTime(url, t)`. -/
def setLatest (st : ServiceState) (u : String) (t : GoTime) : ServiceState :=
  { st with latest := fun x => if x = u then t else st.latest x }

/-- `shouldSkipEntry`: skip when the dedup lookup errors, when the entry is
already delivered, or — on a non-first run — when its publish timestamp is
not strictly after the watermark. -/
def shouldSkipEntry (env : Env) (st : ServiceState) (e : FeedEntry)
    (latestPublished : GoTime) (isFirstRun : Bool) : Bool :=
  if env.isProcessedOk e.guid = false then true
  else if st.processed e.guid then true
  else if !isFirstRun && !(e.IsNewerThan latestPublished) then true
  else false

/-- The scan inside `findMostRecentEntry`: keep the entry published
strictly latest so far (first winner on ties). -/
def mostRecentLoop (cur : FeedEntry) : List FeedEntry → FeedEntry
  | [] => cur
  | e :: es =>
      mostRecentLoop (if goAfter e.published cur.published then e else cur) es

/-- `findMostRecentEntry`: nil for an empty list, else the singleton of the
latest-published entry. -/
def findMostRecentEntry : List FeedEntry → List FeedEntry
  | [] => []
  | e :: es => [mostRecentLoop e es]

/-- `filterNewEntries`: on a first run with the latest-only policy, the
single most recent entry; otherwise the entries `shouldSkipEntry` keeps. -/
def filterNewEntries (firstRunLatestOnly : Bool) (env : Env) (st : ServiceState)
    (entries : List FeedEntry) (latestPublished : GoTime) (isFirstRun : Bool) :
    List FeedEntry :=
  if isFirstRun && firstRunLatestOnly then findMostRecentEntry entries
  else entries.filter fun e => !(shouldSkipEntry env st e latestPublished isFirstRun)

/-- `sortEntriesByPublishedAsc` uses `sort.Slice` with `Published.Before` —
an unspecified, unstable comparison sort.  It is modelled by a structural
comparison sort with the same comparator (ascending publish time); the
claims below depend only on the result being a permutation. -/
def insertByPublished (e : FeedEntry) : List FeedEntry → List FeedEntry
  | [] => [e]
  | x :: xs =>
      if goAfter e.published x.published then x :: insertByPublished e xs
      else e :: x :: xs

/-- See `insertByPublished`. -/
def sortEntriesByPublishedAsc : List FeedEntry → List FeedEntry
  | [] => []
  | e :: es => insertByPublished e (sortEntriesByPublishedAsc es)

/-- The delivery loop `postEntries`: for each entry, post (a failure skips
the entry), on success mark it delivered (a mark failure is only logged)
and raise the running maximum publish time.  Returns the final cache state,
the successfully posted entries in order, and the running maximum. -/
def postEntries (env : Env) :
    List FeedEntry → ServiceState → GoTime → ServiceState × List FeedEntry × GoTime
  | [], st, latestTime => (st, [], latestTime)
  | e :: es, st, latestTime =>
      if env.postOk e.guid then
        let st1 := if env.markOk e.guid then markProcessed st e.guid else st
        let lt1 := if goAfter e.published latestTime then e.published else latestTime
        let r := postEntries env es st1 lt1
        (r.1, e :: r.2.1, r.2.2)
      else
        postEntries env es st latestTime

/-- Result of one `ProcessFeed` pass: the cache state, the entries whose
messages reached the Delivery Port, and whether the pass returned an
error. -/
structure ProcessResult where
  state : ServiceState
  posted : List FeedEntry
  isErr : Bool

/-- `RSSFeedService.ProcessFeed` for one feed descriptor: fetch, keyword
filter, watermark read, new-entry selection, ascending sort, delivery loop,
and conditional watermark persistence.  Summarization never affects control
flow (its failures are logged and yield an empty summary), so it is not
modelled. -/
def ProcessFeed (firstRunLatestOnly : Bool) (env : Env) (st : ServiceState)
    (setting : RSSSettings) : ProcessResult :=
  match env.fetch setting.url with
  | none => { state := st, posted := [], isErr := true }
  | some fetched =>
      let entries := filterByKeywords fetched setting.keywords
      if entries.length = 0 then { state := st, posted := [], isErr := false }
      else if env.getOk = false then { state := st, posted := [], isErr := true }
      else
        let latestPublished := st.latest setting.url
        let isFirstRun := goIsZero latestPublished
        let newEntries :=
          filterNewEntries firstRunLatestOnly env st entries latestPublished isFirstRun
        if newEntries.length = 0 then { state := st, posted := [], isErr := false }
        else
          let r := postEntries env (sortEntriesByPublishedAsc newEntries) st goZeroTime
          if goIsZero r.2.2 then { state := r.1, posted := r.2.1, isErr := false }
          else if env.saveOk then
            { state := setLatest r.1 setting.url r.2.2, posted := r.2.1, isErr := false }
          else { state := r.1, posted := r.2.1, isErr := true }

/-- Claim C9: when the Delivery Port fails for an entry, the delivery loop
leaves the cache state exactly as it would be without that entry — the
entry is not marked delivered, its timestamp does not raise the running
maximum used for the watermark — and the loop continues with the remaining
entries; the failed entry is absent from the posted list. -/
theorem claim9_post_failure_skips_entry (env : Env) (e : FeedEntry)
    (rest : List FeedEntry) (st : ServiceState) (lt : GoTime)
    (h : env.postOk e.guid = false) :
    postEntries env (e :: rest) st lt = postEntries env rest st lt := by
  simp [postEntries, h]

/-- Claim C3: on a non-first run (non-zero watermark), an entry of the
filtered list whose dedup lookup succeeds is selected by the new-entry
selector exactly when it is not already delivered and its publish timestamp
is strictly after the watermark. -/
theorem claim3_selector_non_first_run (firstRunLatestOnly : Bool) (env : Env)
    (st : ServiceState) (entries : List FeedEntry) (wm : GoTime) (e : FeedEntry)
    (hwm : goIsZero wm = false)
    (he : e ∈ entries)
    (hok : env.isProcessedOk e.guid = true) :
    e ∈ filterNewEntries firstRunLatestOnly env st entries wm (goIsZero wm) ↔
      (st.processed e.guid = false ∧ goAfter e.published wm = true) := by
  rw [hwm]
  simp only [filterNewEntries, Bool.false_and, if_neg (Bool.false_ne_true),
    List.mem_filter, shouldSkipEntry, FeedEntry.IsNewerThan]
  rw [if_neg (by simp [hok])]
  constructor
  · rintro ⟨-, hsel⟩
    by_cases hp : st.processed e.guid = true
    · simp [hp] at hsel
    · have hp2 : st.processed e.guid = false := Bool.eq_false_iff.mpr hp
      simp only [hp2, if_false, Bool.not_false, Bool.not_true, Bool.true_and] at hsel
      rcases h2 : goAfter e.published wm with _ | _
      · simp [h2] at hsel
      · exact ⟨hp2, rfl⟩
  · rintro ⟨hp, ha⟩
    refine ⟨he, ?_⟩
    simp [hp, ha]

theorem mostRecentLoop_mem : ∀ (l : List FeedEntry) (c : FeedEntry),
    mostRecentLoop c l ∈ c :: l
  | [], c => by simp [mostRecentLoop]
  | e :: es, c => by
      simp only [mostRecentLoop]
      have ih := mostRecentLoop_mem es (if goAfter e.published c.published then e else c)
      rcases List.mem_cons.mp ih with h | h
      · rw [h]
        split
        · exact List.mem_cons_of_mem c (List.mem_cons_self e es)
        · exact List.mem_cons_self c (e :: es)
      · exact List.mem_cons_of_mem c (List.mem_cons_of_mem e h)

theorem mostRecentLoop_maximal : ∀ (l : List FeedEntry) (c x : FeedEntry),
    x ∈ c :: l → goAfter x.published (mostRecentLoop c l).published = false
  | [], c, x => by
      intro hx
      rcases List.mem_cons.mp hx with rfl | h
      · simp [mostRecentLoop, goAfter_irrefl]
      · simp at h
  | e :: es, c, x => by
      intro hx
      simp only [mostRecentLoop]
      by_cases hb : goAfter e.published c.published = true
      · rw [if_pos hb]
        have ih := mostRecentLoop_maximal es e
        rcases List.mem_cons.mp hx with rfl | hx2
        · exact goAfter_false_trans (ih e (List.mem_cons_self e es)) (goAfter_asymm hb)
        · rcases List.mem_cons.mp hx2 with rfl | hx3
          · exact ih x (List.mem_cons_self x es)
          · exact ih x (List.mem_cons_of_mem e hx3)
      · rw [if_neg hb]
        have hbf : goAfter e.published c.published = false := Bool.eq_false_iff.mpr hb
        have ih := mostRecentLoop_maximal es c
        rcases List.mem_cons.mp hx with rfl | hx2
        · exact ih x (List.mem_cons_self x es)
        · rcases List.mem_cons.mp hx2 with rfl | hx3
          · exact goAfter_false_trans (ih c (List.mem_cons_self c es)) hbf
          · exact ih x (List.mem_cons_of_mem c hx3)

theorem insertByPublished_perm (e : FeedEntry) :
    ∀ l : List FeedEntry, (insertByPublished e l).Perm (e :: l)
  | [] => List.Perm.refl _
  | x :: xs => by
      simp only [insertByPublished]
      split
      · exact ((insertByPublished_perm e xs).cons x).trans (List.Perm.swap e x xs)
      · exact List.Perm.refl _

theorem sortEntriesByPublishedAsc_perm :
    ∀ l : List FeedEntry, (sortEntriesByPublishedAsc l).Perm l
  | [] => List.Perm.refl _
  | e :: es =>
      (insertByPublished_perm e (sortEntriesByPublishedAsc es)).trans
        ((sortEntriesByPublishedAsc_perm es).cons e)

/-- Claim C2: on a first run (zero watermark) with the latest-only policy
enabled and the Delivery Port succeeding, a pass over a feed whose
keyword-filtered entry list is non-empty posts exactly one message, and it
is for an entry of maximal publish timestamp among the filtered entries. -/
theorem claim2_first_run_single_post (env : Env) (st : ServiceState)
    (setting : RSSSettings) (fetched : List FeedEntry)
    (hf : env.fetch setting.url = some fetched)
    (hne : filterByKeywords fetched setting.keywords ≠ [])
    (hget : env.getOk = true)
    (hzero : st.latest setting.url = goZeroTime)
    (hpost : ∀ g : String, env.postOk g = true) :
    ∃ e : FeedEntry,
      (ProcessFeed true env st setting).posted = [e] ∧
      e ∈ filterByKeywords fetched setting.keywords ∧
      ∀ x ∈ filterByKeywords fetched setting.keywords,
        goAfter x.published e.published = false := by
  obtain ⟨h0, t0, hes⟩ :
      ∃ h0 t0, filterByKeywords fetched setting.keywords = h0 :: t0 := by
    cases hcase : filterByKeywords fetched setting.keywords with
    | nil => exact absurd hcase hne
    | cons a b => exact ⟨a, b, rfl⟩
  refine ⟨mostRecentLoop h0 t0, ?_, ?_, ?_⟩
  · unfold ProcessFeed
    rw [hf]
    simp only [hes, hzero, hget]
    rw [if_neg (by simp)]
    rw [if_neg (by simp)]
    have hz : goIsZero goZeroTime = true := rfl
    simp only [hz]
    have hsel : filterNewEntries true env st (h0 :: t0) goZeroTime true =
        [mostRecentLoop h0 t0] := by
      simp [filterNewEntries, findMostRecentEntry]
    rw [hsel]
    rw [if_neg (by simp)]
    have hsort : sortEntriesByPublishedAsc [mostRecentLoop h0 t0] =
        [mostRecentLoop h0 t0] := rfl
    rw [hsort]
    have hpe : ∀ st1 : ServiceState,
        (postEntries env [mostRecentLoop h0 t0] st1 goZeroTime).2.1 =
          [mostRecentLoop h0 t0] := by
      intro st1
      simp [postEntries, hpost]
    split
    · exact hpe st
    · split
      · exact hpe st
      · exact hpe st
  · rw [hes]
    exact mostRecentLoop_mem t0 h0
  · intro x hx
    rw [hes] at hx
    exact mostRecentLoop_maximal t0 h0 x hx

/-- Fixture: a feed entry published at internal second 100. -/
def entA : FeedEntry :=
  { title := "Article A", link := "https://example.tld/a",
    description := "alpha body", published := { sec := 100, nsec := 0 },
    guid := "guid-a" }

/-- Fixture: a feed entry published at internal second 200. -/
def entB : FeedEntry :=
  { title := "Article B", link := "https://example.tld/b",
    description := "beta body", published := { sec := 200, nsec := 0 },
    guid := "guid-b" }

/-- Fixture: a feed entry published at internal second 300. -/
def entC : FeedEntry :=
  { title := "Article C", link := "https://example.tld/c",
    description := "gamma body", published := { sec := 300, nsec := 0 },
    guid := "guid-c" }

/-- Fixture: every collaborator call succeeds; the fetch returns A, B, C. -/
def envAllOk : Env :=
  { fetch := fun _ => some [entA, entB, entC],
    isProcessedOk := fun _ => true, postOk := fun _ => true,
    markOk := fun _ => true, getOk := true, saveOk := true }

/-- Fixture: like `envAllOk` but every Delivery Port call fails. -/
def envPostFail : Env :=
  { fetch := fun _ => some [entA, entB, entC],
    isProcessedOk := fun _ => true, postOk := fun _ => false,
    markOk := fun _ => true, getOk := true, saveOk := true }

/-- Fixture: the empty cache — no watermark, nothing delivered. -/
def stEmpty : ServiceState :=
  { latest := fun _ => goZeroTime, processed := fun _ => false }

theorem claim2_first_run_single_post_witness :
    ∃ e : FeedEntry,
      (ProcessFeed true envAllOk stEmpty
          { url := "https://example.tld/rss", keywords := [] }).posted = [e] ∧
      e ∈ filterByKeywords [entA, entB, entC] [] ∧
      ∀ x ∈ filterByKeywords [entA, entB, entC] [],
        goAfter x.published e.published = false :=
  claim2_first_run_single_post envAllOk stEmpty
    { url := "https://example.tld/rss", keywords := [] } [entA, entB, entC]
    rfl (by decide) rfl rfl (fun _ => rfl)

theorem claim3_selector_non_first_run_witness :
    entB ∈ filterNewEntries true envAllOk stEmpty [entA, entB]
        { sec := 150, nsec := 0 } (goIsZero { sec := 150, nsec := 0 }) ↔
      (stEmpty.processed entB.guid = false ∧
        goAfter entB.published { sec := 150, nsec := 0 } = true) :=
  claim3_selector_non_first_run true envAllOk stEmpty [entA, entB]
    { sec := 150, nsec := 0 } entB (by decide) (by decide) rfl

theorem claim9_post_failure_skips_entry_witness :
    postEntries envPostFail [entA] stEmpty goZeroTime =
      postEntries envPostFail [] stEmpty goZeroTime :=
  claim9_post_failure_skips_entry envPostFail entA [] stEmpty goZeroTime rfl

theorem goIsZero_eq_true {t : GoTime} (h : goIsZero t = true) : t = goZeroTime := by
  simpa [goIsZero] using h

theorem postEntries_latest_eq (env : Env) :
    ∀ (es : List FeedEntry) (st : ServiceState) (lt : GoTime),
      (postEntries env es st lt).1.latest = st.latest
  | [], st, lt => rfl
  | e :: es, st, lt => by
      simp only [postEntries]
      split
      · dsimp only
        rw [postEntries_latest_eq env es]
        split <;> rfl
      · exact postEntries_latest_eq env es st lt

theorem postEntries_posted_sublist (env : Env) :
    ∀ (es : List FeedEntry) (st : ServiceState) (lt : GoTime),
      (postEntries env es st lt).2.1.Sublist es
  | [], st, lt => List.Sublist.refl []
  | e :: es, st, lt => by
      simp only [postEntries]
      split
      · dsimp only
        exact List.Sublist.cons₂ e (postEntries_posted_sublist env es _ _)
      · exact List.Sublist.cons e (postEntries_posted_sublist env es st lt)

theorem postEntries_init_le (env : Env) :
    ∀ (es : List FeedEntry) (st : ServiceState) (lt : GoTime),
      goAfter lt (postEntries env es st lt).2.2 = false
  | [], st, lt => goAfter_irrefl lt
  | e :: es, st, lt => by
      simp only [postEntries]
      split
      · dsimp only
        have hstep : goAfter lt
            (if goAfter e.published lt then e.published else lt) = false := by
          split
          · rename_i hc
            exact goAfter_asymm hc
          · exact goAfter_irrefl lt
        exact goAfter_false_trans (postEntries_init_le env es _ _) hstep
      · exact postEntries_init_le env es st lt

theorem postEntries_final_cases (env : Env) :
    ∀ (es : List FeedEntry) (st : ServiceState) (lt : GoTime),
      (postEntries env es st lt).2.2 = lt ∨
        (postEntries env es st lt).2.2 ∈
          (postEntries env es st lt).2.1.map (fun x => x.published)
  | [], st, lt => Or.inl rfl
  | e :: es, st, lt => by
      simp only [postEntries]
      split
      · dsimp only
        rcases postEntries_final_cases env es
            (if env.markOk e.guid = true then markProcessed st e.guid else st)
            (if goAfter e.published lt then e.published else lt) with h | h
        · rw [h]
          split
          · exact Or.inr (by simp)
          · exact Or.inl rfl
        · exact Or.inr (List.mem_cons_of_mem _ h)
      · exact postEntries_final_cases env es st lt

theorem postEntries_posted_le_final (env : Env) :
    ∀ (es : List FeedEntry) (st : ServiceState) (lt : GoTime),
      ∀ x ∈ (postEntries env es st lt).2.1,
        goAfter x.published (postEntries env es st lt).2.2 = false
  | [], st, lt => by
      intro x hx
      simp [postEntries] at hx
  | e :: es, st, lt => by
      intro x hx
      simp only [postEntries] at hx ⊢
      revert hx
      split
      · dsimp only
        intro hx
        rcases List.mem_cons.mp hx with rfl | hx2
        · have hstep : goAfter x.published
              (if goAfter x.published lt then x.published else lt) = false := by
            split
            · exact goAfter_irrefl _
            · rename_i hc
              exact Bool.eq_false_iff.mpr hc
          exact goAfter_false_trans (postEntries_init_le env es _ _) hstep
        · exact postEntries_posted_le_final env es _ _ x hx2
      · intro hx
        exact postEntries_posted_le_final env es st lt x hx

theorem postEntries_processed_mono (env : Env) :
    ∀ (es : List FeedEntry) (st : ServiceState) (lt : GoTime) (g : String),
      st.processed g = true → (postEntries env es st lt).1.processed g = true
  | [], st, lt, g => fun h => h
  | e :: es, st, lt, g => by
      intro h
      simp only [postEntries]
      split
      · dsimp only
        refine postEntries_processed_mono env es _ _ g ?_
        split
        · simp only [markProcessed]
          split <;> simp [h]
        · exact h
      · exact postEntries_processed_mono env es st lt g h

theorem filterNewEntries_not_first_after (firstRunLatestOnly : Bool) (env : Env)
    (st : ServiceState) (entries : List FeedEntry) (wm : GoTime) (x : FeedEntry)
    (hx : x ∈ filterNewEntries firstRunLatestOnly env st entries wm false) :
    goAfter x.published wm = true := by
  simp only [filterNewEntries, Bool.false_and, if_neg (Bool.false_ne_true),
    List.mem_filter, Bool.not_eq_true'] at hx
  have hskip := hx.2
  cases ha : goAfter x.published wm with
  | true => rfl
  | false =>
      rw [shouldSkipEntry] at hskip
      simp [FeedEntry.IsNewerThan, ha] at hskip

/-- Claim C4: the watermark of a feed address never decreases across a
`ProcessFeed` pass, the pass persists a new watermark only when at least one
entry was successfully delivered, and the value it persists is the maximum
publish timestamp among the successfully delivered entries (so it is never
below the watermark read at the start of the pass, and no other feed's
watermark moves). -/
theorem claim4_watermark_monotone (firstRunLatestOnly : Bool) (env : Env)
    (st : ServiceState) (setting : RSSSettings) :
    (∀ u : String,
      goAfter (st.latest u)
        ((ProcessFeed firstRunLatestOnly env st setting).state.latest u) = false) ∧
    ((ProcessFeed firstRunLatestOnly env st setting).state.latest setting.url ≠
        st.latest setting.url →
      (ProcessFeed firstRunLatestOnly env st setting).posted ≠ [] ∧
      (ProcessFeed firstRunLatestOnly env st setting).state.latest setting.url ∈
        (ProcessFeed firstRunLatestOnly env st setting).posted.map
          (fun x => x.published) ∧
      ∀ x ∈ (ProcessFeed firstRunLatestOnly env st setting).posted,
        goAfter x.published
          ((ProcessFeed firstRunLatestOnly env st setting).state.latest
            setting.url) = false) := by
  rcases hf : env.fetch setting.url with _ | fetched
  · simp only [ProcessFeed, hf]
    exact ⟨fun u => goAfter_irrefl _, fun h => absurd rfl h⟩
  simp only [ProcessFeed, hf]
  by_cases hlen : (filterByKeywords fetched setting.keywords).length = 0
  · rw [if_pos hlen]
    exact ⟨fun u => goAfter_irrefl _, fun h => absurd rfl h⟩
  rw [if_neg hlen]
  by_cases hget : env.getOk = false
  · rw [if_pos hget]
    exact ⟨fun u => goAfter_irrefl _, fun h => absurd rfl h⟩
  rw [if_neg hget]
  by_cases hlen2 : (filterNewEntries firstRunLatestOnly env st
      (filterByKeywords fetched setting.keywords) (st.latest setting.url)
      (goIsZero (st.latest setting.url))).length = 0
  · rw [if_pos hlen2]
    exact ⟨fun u => goAfter_irrefl _, fun h => absurd rfl h⟩
  rw [if_neg hlen2]
  by_cases hz : goIsZero (postEntries env
      (sortEntriesByPublishedAsc (filterNewEntries firstRunLatestOnly env st
        (filterByKeywords fetched setting.keywords) (st.latest setting.url)
        (goIsZero (st.latest setting.url)))) st goZeroTime).2.2 = true
  · rw [if_pos hz]
    dsimp only
    rw [postEntries_latest_eq]
    exact ⟨fun u => goAfter_irrefl _, fun h => absurd rfl h⟩
  rw [if_neg hz]
  by_cases hsave : env.saveOk = true
  · rw [if_pos hsave]
    dsimp only
    have hfin := postEntries_final_cases env
      (sortEntriesByPublishedAsc (filterNewEntries firstRunLatestOnly env st
        (filterByKeywords fetched setting.keywords) (st.latest setting.url)
        (goIsZero (st.latest setting.url)))) st goZeroTime
    rcases hfin with hcase | hcase
    · rw [hcase] at hz
      exact absurd rfl hz
    constructor
    · intro u
      by_cases hu : u = setting.url
      · rw [hu]
        simp only [setLatest, if_pos rfl]
        by_cases hfirst : goIsZero (st.latest setting.url) = true
        · rw [goIsZero_eq_true hfirst]
          exact postEntries_init_le env _ _ _
        · have hfirst2 : goIsZero (st.latest setting.url) = false :=
            Bool.eq_false_iff.mpr hfirst
          obtain ⟨x, hxmem, hxeq⟩ := List.mem_map.mp hcase
          have hxsorted := (postEntries_posted_sublist env _ _ _).subset hxmem
          have hxnew := (sortEntriesByPublishedAsc_perm _).mem_iff.mp hxsorted
          rw [hfirst2] at hxnew
          have hafter := filterNewEntries_not_first_after firstRunLatestOnly env st
            (filterByKeywords fetched setting.keywords) (st.latest setting.url) x hxnew
          rw [← hxeq]
          exact goAfter_asymm hafter
      · simp only [setLatest, if_neg hu]
        rw [postEntries_latest_eq]
        exact goAfter_irrefl _
    · intro _
      refine ⟨?_, ?_, ?_⟩
      · obtain ⟨x, hxmem, -⟩ := List.mem_map.mp hcase
        exact List.ne_nil_of_mem hxmem
      · simpa only [setLatest, if_pos rfl] using hcase
      · intro x hx
        simp only [setLatest, if_pos rfl]
        exact postEntries_posted_le_final env _ _ _ x hx
  · rw [if_neg hsave]
    dsimp only
    rw [postEntries_latest_eq]
    exact ⟨fun u => goAfter_irrefl _, fun h => absurd rfl h⟩

theorem filterNewEntries_noPolicy_unprocessed (env : Env) (st : ServiceState)
    (entries : List FeedEntry) (wm : GoTime) (fr : Bool) (x : FeedEntry)
    (hx : x ∈ filterNewEntries false env st entries wm fr) :
    st.processed x.guid = false := by
  simp only [filterNewEntries, Bool.and_false, if_neg (Bool.false_ne_true),
    List.mem_filter, Bool.not_eq_true'] at hx
  have hskip := hx.2
  by_cases hp : st.processed x.guid = true
  · rw [shouldSkipEntry] at hskip
    simp [hp] at hskip
  · exact Bool.eq_false_iff.mpr hp

theorem postEntries_marks (env : Env) (hmark : ∀ g : String, env.markOk g = true) :
    ∀ (es : List FeedEntry) (st : ServiceState) (lt : GoTime),
      ∀ x ∈ (postEntries env es st lt).2.1,
        (postEntries env es st lt).1.processed x.guid = true
  | [], st, lt => by
      intro x hx
      simp [postEntries] at hx
  | e :: es, st, lt => by
      intro x hx
      simp only [postEntries] at hx ⊢
      revert hx
      split
      · dsimp only
        intro hx
        rcases List.mem_cons.mp hx with rfl | hx2
        · refine postEntries_processed_mono env es _ _ _ ?_
          rw [if_pos (hmark x.guid)]
          simp [markProcessed]
        · exact postEntries_marks env hmark es _ _ x hx2
      · intro hx
        exact postEntries_marks env hmark es st lt x hx

theorem processFeed_noPolicy_dedup (env : Env) (st : ServiceState)
    (setting : RSSSettings)
    (hmark : ∀ g : String, env.markOk g = true)
    (hnodup : ∀ l : List FeedEntry, env.fetch setting.url = some l →
      (l.map (fun e => e.guid)).Nodup)
    (g : String) :
    (((ProcessFeed false env st setting).posted.map (fun e => e.guid)).count g ≤ 1) ∧
    (g ∈ (ProcessFeed false env st setting).posted.map (fun e => e.guid) →
      st.processed g = false ∧
        (ProcessFeed false env st setting).state.processed g = true) ∧
    (st.processed g = true →
      (ProcessFeed false env st setting).state.processed g = true) := by
  rcases hf : env.fetch setting.url with _ | fetched
  · simp only [ProcessFeed, hf]
    exact ⟨by simp, by simp, fun h => h⟩
  simp only [ProcessFeed, hf]
  by_cases hlen : (filterByKeywords fetched setting.keywords).length = 0
  · rw [if_pos hlen]
    exact ⟨by simp, by simp, fun h => h⟩
  rw [if_neg hlen]
  by_cases hget : env.getOk = false
  · rw [if_pos hget]
    exact ⟨by simp, by simp, fun h => h⟩
  rw [if_neg hget]
  by_cases hlen2 : (filterNewEntries false env st
      (filterByKeywords fetched setting.keywords) (st.latest setting.url)
      (goIsZero (st.latest setting.url))).length = 0
  · rw [if_pos hlen2]
    exact ⟨by simp, by simp, fun h => h⟩
  rw [if_neg hlen2]
  have hpostednodup : ((postEntries env
      (sortEntriesByPublishedAsc (filterNewEntries false env st
        (filterByKeywords fetched setting.keywords) (st.latest setting.url)
        (goIsZero (st.latest setting.url)))) st goZeroTime).2.1.map
        (fun e => e.guid)).Nodup := by
    have h1 : (fetched.map (fun e => e.guid)).Nodup := hnodup fetched hf
    have h2 : (filterByKeywords fetched setting.keywords).Sublist fetched := by
      unfold filterByKeywords
      split
      · exact List.Sublist.refl _
      · rw [filterByKeywordsLoop_eq_filter]
        exact List.filter_sublist _
    have h3 : (filterNewEntries false env st
        (filterByKeywords fetched setting.keywords) (st.latest setting.url)
        (goIsZero (st.latest setting.url))).Sublist
          (filterByKeywords fetched setting.keywords) := by
      simp only [filterNewEntries, Bool.and_false, if_neg (Bool.false_ne_true)]
      exact List.filter_sublist _
    have h4 := sortEntriesByPublishedAsc_perm (filterNewEntries false env st
      (filterByKeywords fetched setting.keywords) (st.latest setting.url)
      (goIsZero (st.latest setting.url)))
    have h5 := postEntries_posted_sublist env
      (sortEntriesByPublishedAsc (filterNewEntries false env st
        (filterByKeywords fetched setting.keywords) (st.latest setting.url)
        (goIsZero (st.latest setting.url)))) st goZeroTime
    have hn2 := (h2.map (fun e => e.guid)).nodup h1
    have hn3 := (h3.map (fun e => e.guid)).nodup hn2
    have hn4 := ((h4.map (fun e => e.guid)).symm).nodup hn3
    exact (h5.map (fun e => e.guid)).nodup hn4
  have hmem : ∀ x ∈ (postEntries env
      (sortEntriesByPublishedAsc (filterNewEntries false env st
        (filterByKeywords fetched setting.keywords) (st.latest setting.url)
        (goIsZero (st.latest setting.url)))) st goZeroTime).2.1,
      st.processed x.guid = false := by
    intro x hx
    have hxs := (postEntries_posted_sublist env _ _ _).subset hx
    have hxn := (sortEntriesByPublishedAsc_perm _).mem_iff.mp hxs
    exact filterNewEntries_noPolicy_unprocessed env st
      (filterByKeywords fetched setting.keywords) (st.latest setting.url)
      (goIsZero (st.latest setting.url)) x hxn
  have key : ((postEntries env
      (sortEntriesByPublishedAsc (filterNewEntries false env st
        (filterByKeywords fetched setting.keywords) (st.latest setting.url)
        (goIsZero (st.latest setting.url)))) st goZeroTime).2.1.map
        (fun e => e.guid)).count g ≤ 1 ∧
      (g ∈ (postEntries env
        (sortEntriesByPublishedAsc (filterNewEntries false env st
          (filterByKeywords fetched setting.keywords) (st.latest setting.url)
          (goIsZero (st.latest setting.url)))) st goZeroTime).2.1.map
          (fun e => e.guid) →
        st.processed g = false ∧
          (postEntries env
            (sortEntriesByPublishedAsc (filterNewEntries false env st
              (filterByKeywords fetched setting.keywords) (st.latest setting.url)
              (goIsZero (st.latest setting.url)))) st goZeroTime).1.processed g =
            true) ∧
      (st.processed g = true →
        (postEntries env
          (sortEntriesByPublishedAsc (filterNewEntries false env st
            (filterByKeywords fetched setting.keywords) (st.latest setting.url)
            (goIsZero (st.latest setting.url)))) st goZeroTime).1.processed g =
          true) := by
    refine ⟨List.nodup_iff_count_le_one.mp hpostednodup g, ?_, ?_⟩
    · intro hg
      obtain ⟨x, hxp, hxg⟩ := List.mem_map.mp hg
      refine ⟨hxg ▸ hmem x hxp, hxg ▸ ?_⟩
      exact postEntries_marks env hmark _ _ _ x hxp
    · intro hp
      exact postEntries_processed_mono env _ _ _ g hp
  split
  · exact ⟨key.1, key.2.1, key.2.2⟩
  · split
    · exact ⟨key.1, key.2.1, key.2.2⟩
    · exact ⟨key.1, key.2.1, key.2.2⟩

/-- A sequence of `ProcessFeed` passes over the same feed descriptor,
each with its own collaborator outcomes, threading the cache state and
concatenating the posted entries. -/
def runFeeds (firstRunLatestOnly : Bool) (setting : RSSSettings) :
    List Env → ServiceState → ServiceState × List FeedEntry
  | [], st => (st, [])
  | env :: rest, st =>
      let r := ProcessFeed firstRunLatestOnly env st setting
      let rr := runFeeds firstRunLatestOnly setting rest r.state
      (rr.1, r.posted ++ rr.2)

theorem runFeeds_count_le_one (setting : RSSSettings) :
    ∀ (envs : List Env) (st : ServiceState) (g : String),
      (∀ env ∈ envs, ∀ gg : String, env.markOk gg = true) →
      (∀ env ∈ envs, ∀ l : List FeedEntry, env.fetch setting.url = some l →
        (l.map (fun e => e.guid)).Nodup) →
      (((runFeeds false setting envs st).2.map (fun e => e.guid)).count g ≤ 1 ∧
        (st.processed g = true →
          ((runFeeds false setting envs st).2.map (fun e => e.guid)).count g = 0) ∧
        (st.processed g = true → (runFeeds false setting envs st).1.processed g = true))
  | [], st, g => by
      intro _ _
      exact ⟨by simp [runFeeds], by simp [runFeeds], fun h => h⟩
  | env :: rest, st, g => by
      intro hmark hnodup
      have hP := processFeed_noPolicy_dedup env st setting
        (hmark env (List.mem_cons_self env rest))
        (hnodup env (List.mem_cons_self env rest)) g
      have hmark2 : ∀ e2 ∈ rest, ∀ gg : String, e2.markOk gg = true :=
        fun e2 he2 => hmark e2 (List.mem_cons_of_mem env he2)
      have hnodup2 : ∀ e2 ∈ rest, ∀ l : List FeedEntry,
          e2.fetch setting.url = some l → (l.map (fun e => e.guid)).Nodup :=
        fun e2 he2 => hnodup e2 (List.mem_cons_of_mem env he2)
      have ih := runFeeds_count_le_one setting rest
        ((ProcessFeed false env st setting).state) g hmark2 hnodup2
      simp only [runFeeds]
      rw [List.map_append, List.count_append]
      by_cases hg : g ∈ (ProcessFeed false env st setting).posted.map (fun e => e.guid)
      · obtain ⟨hpf, hpt⟩ := hP.2.1 hg
        have hrest0 := ih.2.1 hpt
        refine ⟨?_, ?_, ?_⟩
        · rw [hrest0]
          have := hP.1
          omega
        · intro hp
          rw [hpf] at hp
          exact absurd hp (by simp)
        · intro hp
          exact ih.2.2 (hP.2.2 hp)
      · have hc1 : ((ProcessFeed false env st setting).posted.map
            (fun e => e.guid)).count g = 0 := List.count_eq_zero.mpr hg
        refine ⟨?_, ?_, ?_⟩
        · rw [hc1]
          have := ih.1
          omega
        · intro hp
          rw [hc1, ih.2.1 (hP.2.2 hp)]
        · intro hp
          exact ih.2.2 (hP.2.2 hp)

/-- Fixture: one entry A per fetch, everything succeeds except that the
watermark save fails. -/
def envSaveFail : Env :=
  { fetch := fun _ => some [entA], isProcessedOk := fun _ => true,
    postOk := fun _ => true, markOk := fun _ => true, getOk := true,
    saveOk := false }

/-- Fixture: one entry A per fetch, every collaborator call succeeds. -/
def envFeedA : Env :=
  { fetch := fun _ => some [entA], isProcessedOk := fun _ => true,
    postOk := fun _ => true, markOk := fun _ => true, getOk := true,
    saveOk := true }

/-- Fixture: a feed descriptor with no keyword filtering. -/
def rssFeedSetting : RSSSettings :=
  { url := "https://example.tld/rss", keywords := [] }

/-- Claim C1, counterexample: with the first-run-latest-only policy enabled,
a pass that posts entry A, marks it delivered, but fails to persist the
watermark leaves the watermark zero with A in the delivered-set; the next
pass reads a zero watermark, takes the first-run path — which never consults
the delivered-set — and posts A again: two messages for the same entry
identifier across the sequence, not at most one. -/
theorem claim1_counterexample :
    (((runFeeds true rssFeedSetting [envSaveFail, envFeedA] stEmpty).2.map
        (fun e => e.guid)).count "guid-a" = 2) ∧
      ¬ (((runFeeds true rssFeedSetting [envSaveFail, envFeedA] stEmpty).2.map
          (fun e => e.guid)).count "guid-a" ≤ 1) := by
  decide

/-- Claim C1, amended: an entry identifier is posted at most once per feed
address across any sequence of `ProcessFeed` passes provided the
first-run-latest-only policy is disabled (so every pass runs the per-entry
selector, which checks the delivered-set before selection and posts only
unselected-before entries), every fetched entry list carries pairwise
distinct identifiers, and `MarkAsProcessed` succeeds after each successful
post.  With the policy enabled the first-run path skips the delivered-set
check, and a pass with a zero watermark and a non-empty delivered-set can
repost a delivered entry (see the counterexample). -/
theorem claim1_at_most_once_amended (setting : RSSSettings) (envs : List Env)
    (st : ServiceState) (g : String)
    (hmark : ∀ env ∈ envs, ∀ gg : String, env.markOk gg = true)
    (hnodup : ∀ env ∈ envs, ∀ l : List FeedEntry, env.fetch setting.url = some l →
      (l.map (fun e => e.guid)).Nodup) :
    ((runFeeds false setting envs st).2.map (fun e => e.guid)).count g ≤ 1 :=
  (runFeeds_count_le_one setting envs st g hmark hnodup).1

theorem claim1_at_most_once_amended_witness :
    ((runFeeds false rssFeedSetting [envFeedA, envFeedA] stEmpty).2.map
        (fun e => e.guid)).count "guid-a" ≤ 1 :=
  claim1_at_most_once_amended rssFeedSetting [envFeedA, envFeedA] stEmpty "guid-a"
    (by
      intro env henv gg
      rcases List.mem_cons.mp henv with rfl | h2
      · rfl
      · rcases List.mem_cons.mp h2 with rfl | h3
        · rfl
        · simp at h3)
    (by
      intro env henv l hl
      rcases List.mem_cons.mp henv with rfl | h2
      · have h := Option.some.inj hl
        subst h
        decide
      · rcases List.mem_cons.mp h2 with rfl | h3
        · have h := Option.some.inj hl
          subst h
          decide
        · simp at h3)

/-! ## Cache stores: SQLite-backed and in-memory -/

/-- `sqliteCache.SaveLatestPublishedTime`: upsert `published.Unix()` — whole
Unix seconds (the `published_at INTEGER` column). -/
def sqliteSaveLatestPublishedTime (tbl : String → Option Int) (url : String)
    (t : GoTime) : String → Option Int :=
  fun u => if u = url then some (goUnix t) else tbl u

/-- `sqliteCache.GetLatestPublishedTime`: the zero time when no row exists,
else `time.Unix(stored, 0)`. -/
def sqliteGetLatestPublishedTime (tbl : String → Option Int) (url : String) :
    GoTime :=
  match tbl url with
  | none => goZeroTime
  | some v => goTimeUnix v

/-- `memoryCache.SaveLatestPublishedTime`: store the `time.Time` itself. -/
def memSaveLatestPublishedTime (tbl : String → Option GoTime) (url : String)
    (t : GoTime) : String → Option GoTime :=
  fun u => if u = url then some t else tbl u

/-- `memoryCache.GetLatestPublishedTime`: the zero time when absent, else
the stored value unchanged. -/
def memGetLatestPublishedTime (tbl : String → Option GoTime) (url : String) :
    GoTime :=
  match tbl url with
  | none => goZeroTime
  | some v => v

/-- Claim C10: the SQLite cache stores timestamps as whole Unix seconds — a
save/get round-trip returns the timestamp truncated to whole seconds, which
equals the original exactly when it has no sub-second component — while the
in-memory cache's round-trip returns the timestamp exactly. -/
theorem claim10_sqlite_truncates_memory_exact (tbl : String → Option Int)
    (tbl2 : String → Option GoTime) (url : String) (t : GoTime)
    (h : t.nsec < 1000000000) :
    sqliteGetLatestPublishedTime (sqliteSaveLatestPublishedTime tbl url t) url =
      truncToSecond t ∧
    (truncToSecond t = t ↔ t.nsec = 0) ∧
    memGetLatestPublishedTime (memSaveLatestPublishedTime tbl2 url t) url = t := by
  refine ⟨?_, ?_, ?_⟩
  · simp [sqliteGetLatestPublishedTime, sqliteSaveLatestPublishedTime,
      goTimeUnix, goUnix, truncToSecond, GoTime.mk.injEq]
  · cases t with
    | mk s n =>
        simp only [truncToSecond, GoTime.mk.injEq, true_and]
        exact eq_comm
  · simp [memGetLatestPublishedTime, memSaveLatestPublishedTime]

theorem claim10_sqlite_truncates_memory_exact_witness :
    sqliteGetLatestPublishedTime
        (sqliteSaveLatestPublishedTime (fun _ => none) "u" { sec := 100, nsec := 5 })
        "u" = truncToSecond { sec := 100, nsec := 5 } ∧
      (truncToSecond { sec := 100, nsec := 5 } = { sec := 100, nsec := 5 } ↔
        ({ sec := 100, nsec := 5 } : GoTime).nsec = 0) ∧
      memGetLatestPublishedTime
        (memSaveLatestPublishedTime (fun _ => none) "u" { sec := 100, nsec := 5 })
        "u" = { sec := 100, nsec := 5 } :=
  claim10_sqlite_truncates_memory_exact (fun _ => none) (fun _ => none) "u"
    { sec := 100, nsec := 5 } (by decide)
